import Mathlib

/-!
Verification development for the eonapi consumption store, fetch planner and
sync path (src/eonapi/database.py and src/eonapi/cli.py).

Modelling conventions of the shallow embedding:
* Timestamps are modelled as integers (seconds). The source keeps
  `interval_start` and friends as ISO-8601 text in SQLite; for timestamps in
  the uniform `datetime.isoformat()` shape, lexicographic TEXT comparison
  agrees with chronological order, so the TEXT column is represented by its
  time value and `ORDER BY` / `MAX` on the column become integer order.
  One day (`timedelta(days=1)`) is 86400 such units.
* The SQLite table `consumption` is a list of rows in rowid (insertion)
  order. The UNIQUE(meter_serial, interval_start) constraint is modelled by
  the membership test performed before each insert; a violating INSERT raises
  IntegrityError in the source, which `store_records` catches and converts
  into a skipped count, so in the model the row is simply not appended.
* Python truthiness of the optional `meter_serial` filter argument
  (`if meter_serial:`) is modelled explicitly: the filter is applied only
  when the argument is present and not the empty string. The optional
  `start_date` and `end_date` arguments are datetime objects, which are
  always truthy, so they are applied whenever present.
* Input records are dictionaries with `startAt`, `endAt` and an optional
  `value` field; `record.get("value", 0)` is modelled by `Option.getD` with
  default 0.
-/

/-- Raw consumption record as delivered by the fetch collaborator:
`{startAt, endAt, value}`, where `value` may be missing. -/
structure RawRecord where
  startAt : Int
  endAt : Int
  value : Option Int
deriving DecidableEq, Repr

/-- Row of the `consumption` table created by `ConsumptionDatabase._init_database`
(src/eonapi/database.py lines 20-37), without the surrogate `id` column, which
is the position in the row list. -/
structure StoredRecord where
  meter_serial : String
  meter_type : String
  interval_start : Int
  interval_end : Int
  consumption_kwh : Int
  created_at : Int
deriving DecidableEq, Repr

/-- The database state: rows of the `consumption` table in insertion order. -/
abbrev DB := List StoredRecord

/-- Row built by the INSERT statement of `store_records`
(src/eonapi/database.py lines 83-95): `float(record.get("value", 0))` becomes
`Option.getD 0`. -/
def mkStored (serial mtype : String) (created_at : Int) (r : RawRecord) :
    StoredRecord :=
  { meter_serial := serial
    meter_type := mtype
    interval_start := r.startAt
    interval_end := r.endAt
    consumption_kwh := r.value.getD 0
    created_at := created_at }

/-- UNIQUE(meter_serial, interval_start) collision test: true exactly when the
INSERT of a row with this key would raise `sqlite3.IntegrityError`. -/
def hasKey (db : DB) (serial : String) (start : Int) : Bool :=
  db.any fun r => r.meter_serial == serial && r.interval_start == start

/-- Embedding of `ConsumptionDatabase.store_records`
(src/eonapi/database.py lines 60-103): sequentially INSERT each record,
counting an insert on success and a skip when the uniqueness key already
exists; returns the new table together with `(inserted, skipped)`. -/
def store_records (db : DB) (records : List RawRecord)
    (serial mtype : String) (created_at : Int) : DB × Nat × Nat :=
  match records with
  | [] => (db, 0, 0)
  | r :: rest =>
    if hasKey db serial r.startAt then
      let res := store_records db rest serial mtype created_at
      (res.1, res.2.1, res.2.2 + 1)
    else
      let res :=
        store_records (db ++ [mkStored serial mtype created_at r])
          rest serial mtype created_at
      (res.1, res.2.1 + 1, res.2.2)

/-- Interval starts of the rows of a given series, in row order: the column
`interval_start` of `SELECT ... WHERE meter_serial = ?`. -/
def seriesStarts (db : DB) (serial : String) : List Int :=
  (db.filter fun r => r.meter_serial == serial).map (·.interval_start)

/-- Embedding of `ConsumptionDatabase.get_latest_interval`
(src/eonapi/database.py lines 39-58): `ORDER BY interval_start DESC LIMIT 1`
over the rows of the series, i.e. the maximum of the column, `none` when the
series has no rows. -/
def get_latest_interval (db : DB) (serial : String) : Option Int :=
  (seriesStarts db serial).max?

/-- Embedding of `ConsumptionDatabase.get_record_count`
(src/eonapi/database.py lines 145-163): `COUNT(*)`, with a
`WHERE meter_serial = ?` clause added only when the argument is truthy in
the Python sense (`if meter_serial:`), i.e. present and non-empty. -/
def get_record_count (db : DB) (serial : Option String) : Nat :=
  match serial with
  | some s =>
    if s ≠ "" then (db.filter fun r => r.meter_serial == s).length
    else db.length
  | none => db.length

/-- WHERE clause of `ConsumptionDatabase.get_all_records`
(src/eonapi/database.py lines 121-134): conjunctive filters, the serial
filter added only when the argument is truthy in the Python sense, the
range filters on `interval_start` inclusive on both bounds. -/
def matchesFilters (serial : Option String) (start_date end_date : Option Int)
    (r : StoredRecord) : Bool :=
  (match serial with
   | some s => if s ≠ "" then r.meter_serial == s else true
   | none => true)
    && (match start_date with
        | some d => decide (d ≤ r.interval_start)
        | none => true)
    && (match end_date with
        | some d => decide (r.interval_start ≤ d)
        | none => true)

/-- Order used by `ORDER BY interval_start`. -/
def startLE (a b : StoredRecord) : Prop :=
  a.interval_start ≤ b.interval_start

instance : DecidableRel startLE := fun a b =>
  inferInstanceAs (Decidable (a.interval_start ≤ b.interval_start))

instance : IsTotal StoredRecord startLE :=
  ⟨fun a b => Int.le_total a.interval_start b.interval_start⟩

instance : IsTrans StoredRecord startLE :=
  ⟨fun _ _ _ h h' => le_trans h h'⟩

/-- Embedding of `ConsumptionDatabase.get_all_records`
(src/eonapi/database.py lines 105-143): filtered rows sorted ascending by
`interval_start`. -/
def get_all_records (db : DB) (serial : Option String)
    (start_date end_date : Option Int) : DB :=
  (db.filter (matchesFilters serial start_date end_date)).insertionSort startLE

/-- Window computation of `fetch_data` in the database (incremental) path
(src/eonapi/cli.py lines 385-411): `end = now`; `start` is the parsed latest
stored interval when one exists, otherwise `now - timedelta(days=days)`. -/
def plan_window (db : DB) (serial : String) (now : Int) (days : Int) :
    Int × Int :=
  match get_latest_interval db serial with
  | some t => (t, now)
  | none => (now - days * 86400, now)

/-- One sync pass of the `export --store` path (src/eonapi/cli.py lines
129-154 together with `fetch_data`): plan the window, call the fetch
collaborator on it, store the result, and report
`(inserted, skipped, total_after)` with `total_after` the record count of the
meter after the store step. -/
def sync (db : DB) (serial mtype : String) (now : Int) (days : Int)
    (fetch : Int → Int → List RawRecord) (created_at : Int) :
    DB × Nat × Nat × Nat :=
  let w := plan_window db serial now days
  let records := fetch w.1 w.2
  let res := store_records db records serial mtype created_at
  (res.1, res.2.1, res.2.2, get_record_count res.1 (some serial))

/-- Records of a batch that actually get inserted when the series keys in
`keys` are already present: sequential deduplication, each inserted record
adding its own key. Specification-level companion of `store_records`. -/
def insertedRecs (keys : List Int) : List RawRecord → List RawRecord
  | [] => []
  | r :: rest =>
    if r.startAt ∈ keys then insertedRecs keys rest
    else r :: insertedRecs (keys ++ [r.startAt]) rest

/-- Number of rows of a series, as a plain property of the table. -/
def seriesCount (db : DB) (serial : String) : Nat :=
  (db.filter fun r => r.meter_serial == serial).length

/-! ## Helper lemmas -/

instance : Std.Antisymm fun (a b : Int) => a ≤ b :=
  ⟨fun {a b} h h2 => le_antisymm h h2⟩

/-- Characterisation of `List.max?` on integers. -/
theorem int_max?_eq_some_iff {l : List Int} {a : Int} :
    l.max? = some a ↔ a ∈ l ∧ ∀ b ∈ l, b ≤ a :=
  List.max?_eq_some_iff (fun _ => le_refl _) (fun _ _ => max_choice _ _)
    (fun _ _ _ => max_le_iff)

/-- The uniqueness-key test holds exactly when the start is one of the
stored interval starts of the series. -/
theorem hasKey_iff (db : DB) (s : String) (a : Int) :
    hasKey db s a = true ↔ a ∈ seriesStarts db s := by
  simp only [hasKey, seriesStarts, List.any_eq_true, Bool.and_eq_true,
    beq_iff_eq, List.mem_map, List.mem_filter]
  constructor
  · rintro ⟨r, hr, hser, hst⟩
    exact ⟨r, ⟨hr, by simp [hser]⟩, hst⟩
  · rintro ⟨r, ⟨hr, hser⟩, hst⟩
    exact ⟨r, hr, by simpa using hser, hst⟩

theorem seriesStarts_append (db rows : DB) (s : String) :
    seriesStarts (db ++ rows) s = seriesStarts db s ++ seriesStarts rows s := by
  simp [seriesStarts, List.filter_append]

theorem seriesStarts_mkStored_singleton (s m : String) (t : Int)
    (r : RawRecord) : seriesStarts [mkStored s m t r] s = [r.startAt] := by
  simp [seriesStarts, mkStored]

theorem insertedRecs_length_le (keys : List Int) (recs : List RawRecord) :
    (insertedRecs keys recs).length ≤ recs.length := by
  induction recs generalizing keys with
  | nil => simp [insertedRecs]
  | cons r rest ih =>
    by_cases h : r.startAt ∈ keys
    · rw [insertedRecs, if_pos h]
      exact le_trans (ih keys) (Nat.le_succ _)
    · rw [insertedRecs, if_neg h]
      exact Nat.succ_le_succ (ih _)

theorem insertedRecs_sublist (keys : List Int) (recs : List RawRecord) :
    (insertedRecs keys recs).Sublist recs := by
  induction recs generalizing keys with
  | nil => simp [insertedRecs]
  | cons r rest ih =>
    by_cases h : r.startAt ∈ keys
    · rw [insertedRecs, if_pos h]
      exact (ih keys).cons r
    · rw [insertedRecs, if_neg h]
      exact (ih _).cons₂ r

theorem insertedRecs_not_mem_keys (keys : List Int) (recs : List RawRecord) :
    ∀ r ∈ insertedRecs keys recs, r.startAt ∉ keys := by
  induction recs generalizing keys with
  | nil => simp [insertedRecs]
  | cons r rest ih =>
    intro x hx
    by_cases h : r.startAt ∈ keys
    · rw [insertedRecs, if_pos h] at hx
      exact ih keys x hx
    · rw [insertedRecs, if_neg h] at hx
      rcases List.mem_cons.mp hx with hx | hx
      · subst hx; exact h
      · intro hk
        exact ih (keys ++ [r.startAt]) x hx (List.mem_append_left _ hk)

/-- The table produced by `store_records` is the old table with the
deduplicated batch appended. -/
theorem store_records_db_eq (recs : List RawRecord) (db : DB)
    (s m : String) (t : Int) :
    (store_records db recs s m t).1 =
      db ++ (insertedRecs (seriesStarts db s) recs).map (mkStored s m t) := by
  induction recs generalizing db with
  | nil => simp [store_records, insertedRecs]
  | cons r rest ih =>
    by_cases h : r.startAt ∈ seriesStarts db s
    · have hk : hasKey db s r.startAt = true := (hasKey_iff db s _).mpr h
      rw [store_records, if_pos hk, insertedRecs, if_pos h]
      exact ih db
    · have hk : ¬ hasKey db s r.startAt = true := fun hc => h ((hasKey_iff db s _).mp hc)
      rw [store_records, if_neg hk, insertedRecs, if_neg h]
      show (store_records (db ++ [mkStored s m t r]) rest s m t).1 = _
      rw [ih (db ++ [mkStored s m t r]), seriesStarts_append,
        seriesStarts_mkStored_singleton]
      simp

/-- The inserted count of `store_records` is the length of the deduplicated
batch. -/
theorem store_records_inserted_eq (recs : List RawRecord) (db : DB)
    (s m : String) (t : Int) :
    (store_records db recs s m t).2.1 =
      (insertedRecs (seriesStarts db s) recs).length := by
  induction recs generalizing db with
  | nil => simp [store_records, insertedRecs]
  | cons r rest ih =>
    by_cases h : r.startAt ∈ seriesStarts db s
    · have hk : hasKey db s r.startAt = true := (hasKey_iff db s _).mpr h
      rw [store_records, if_pos hk, insertedRecs, if_pos h]
      exact ih db
    · have hk : ¬ hasKey db s r.startAt = true := fun hc => h ((hasKey_iff db s _).mp hc)
      rw [store_records, if_neg hk, insertedRecs, if_neg h]
      show (store_records (db ++ [mkStored s m t r]) rest s m t).2.1 + 1 = _
      rw [ih (db ++ [mkStored s m t r]), seriesStarts_append,
        seriesStarts_mkStored_singleton, List.length_cons]

/-- The skipped count of `store_records` is the rest of the batch. -/
theorem store_records_skipped_eq (recs : List RawRecord) (db : DB)
    (s m : String) (t : Int) :
    (store_records db recs s m t).2.2 =
      recs.length - (insertedRecs (seriesStarts db s) recs).length := by
  induction recs generalizing db with
  | nil => simp [store_records, insertedRecs]
  | cons r rest ih =>
    by_cases h : r.startAt ∈ seriesStarts db s
    · have hk : hasKey db s r.startAt = true := (hasKey_iff db s _).mpr h
      rw [store_records, if_pos hk, insertedRecs, if_pos h]
      show (store_records db rest s m t).2.2 + 1 = _
      rw [ih db]
      have hle := insertedRecs_length_le (seriesStarts db s) rest
      simp only [List.length_cons]
      omega
    · have hk : ¬ hasKey db s r.startAt = true := fun hc => h ((hasKey_iff db s _).mp hc)
      rw [store_records, if_neg hk, insertedRecs, if_neg h]
      show (store_records (db ++ [mkStored s m t r]) rest s m t).2.2 = _
      rw [ih (db ++ [mkStored s m t r]), seriesStarts_append,
        seriesStarts_mkStored_singleton]
      have hle := insertedRecs_length_le (seriesStarts db s ++ [r.startAt]) rest
      simp only [List.length_cons]
      omega

/-- Counts conservation: inserted plus skipped is the batch length. -/
theorem store_records_counts (recs : List RawRecord) (db : DB)
    (s m : String) (t : Int) :
    (store_records db recs s m t).2.1 + (store_records db recs s m t).2.2 =
      recs.length := by
  rw [store_records_inserted_eq, store_records_skipped_eq]
  have hle := insertedRecs_length_le (seriesStarts db s) recs
  omega

/-- On a batch with pairwise distinct keys, sequential deduplication reduces
to a filter against the pre-existing keys. -/
theorem insertedRecs_nodup_eq_filter (keys : List Int) (recs : List RawRecord)
    (h : (recs.map (·.startAt)).Nodup) :
    insertedRecs keys recs = recs.filter fun r => decide (r.startAt ∉ keys) := by
  induction recs generalizing keys with
  | nil => simp [insertedRecs]
  | cons r rest ih =>
    rw [List.map_cons, List.nodup_cons] at h
    obtain ⟨hr, hrest⟩ := h
    by_cases hk : r.startAt ∈ keys
    · rw [insertedRecs, if_pos hk, List.filter_cons_of_neg (by simpa using hk)]
      exact ih keys hrest
    · rw [insertedRecs, if_neg hk, List.filter_cons_of_pos (by simpa using hk),
        ih (keys ++ [r.startAt]) hrest]
      congr 1
      refine List.filter_congr fun x hx => ?_
      have hne : x.startAt ≠ r.startAt := by
        intro he
        exact hr (he ▸ List.mem_map_of_mem (·.startAt) hx)
      simp [List.mem_append, hne]

/-- Rows of a batch deduplication carrying a given key: none when the key is
already present, otherwise exactly the first occurrence in the batch. -/
theorem insertedRecs_filter_key (a : Int) (keys : List Int)
    (recs : List RawRecord) :
    (insertedRecs keys recs).filter (fun r => r.startAt == a) =
      if a ∈ keys then [] else (recs.filter fun r => r.startAt == a).take 1 := by
  induction recs generalizing keys with
  | nil => simp [insertedRecs]
  | cons r rest ih =>
    by_cases hk : r.startAt ∈ keys
    · rw [insertedRecs, if_pos hk, ih keys]
      by_cases ha : a ∈ keys
      · rw [if_pos ha, if_pos ha]
      · have hne : ¬ (r.startAt == a) = true := by
          simp only [beq_iff_eq]
          intro he
          exact ha (he ▸ hk)
        rw [if_neg ha, if_neg ha, List.filter_cons, if_neg hne]
    · rw [insertedRecs, if_neg hk]
      by_cases hra : r.startAt = a
      · subst hra
        rw [List.filter_cons_of_pos (by simp), ih (keys ++ [r.startAt]),
          if_pos (by simp), if_neg hk, List.filter_cons_of_pos (by simp)]
        simp
      · have hne : ¬ (r.startAt == a) = true := by simpa using hra
        rw [List.filter_cons, if_neg hne, ih (keys ++ [r.startAt])]
        by_cases ha : a ∈ keys
        · rw [if_pos (by simp [ha]), if_pos ha]
        · have hka : a ∉ keys ++ [r.startAt] := by
            simp only [List.mem_append, List.mem_singleton]
            push_neg
            exact ⟨ha, Ne.symm hra⟩
          rw [if_neg hka, if_neg ha, List.filter_cons, if_neg hne]

/-- The first record of a batch carrying a fresh key is inserted. -/
theorem mem_insertedRecs_of_first (keys : List Int) (pre rest : List RawRecord)
    (r : RawRecord) (hk : r.startAt ∉ keys)
    (hpre : r.startAt ∉ pre.map (·.startAt)) :
    r ∈ insertedRecs keys (pre ++ r :: rest) := by
  induction pre generalizing keys with
  | nil =>
    rw [List.nil_append, insertedRecs, if_neg hk]
    exact List.mem_cons_self r _
  | cons p pre ih =>
    rw [List.map_cons, List.mem_cons, not_or] at hpre
    obtain ⟨hne, hpre⟩ := hpre
    rw [List.cons_append, insertedRecs]
    by_cases hp : p.startAt ∈ keys
    · rw [if_pos hp]
      exact ih keys hk hpre
    · rw [if_neg hp]
      refine List.mem_cons_of_mem p (ih (keys ++ [p.startAt]) ?_ hpre)
      simp only [List.mem_append, List.mem_singleton]
      push_neg
      exact ⟨hk, hne⟩

/-- Interval starts of a stored batch for its own serial. -/
theorem seriesStarts_map_mkStored (recs : List RawRecord) (s m : String)
    (t : Int) :
    seriesStarts (recs.map (mkStored s m t)) s = recs.map (·.startAt) := by
  simp [seriesStarts, List.filter_map, mkStored, Function.comp_def, List.map_map]

/-- Rows of a stored batch matching a serial filter: all of them for the
serial of the batch, none for any other serial. -/
theorem filter_serial_map_mkStored (recs : List RawRecord) (s m : String)
    (t : Int) (s2 : String) :
    (recs.map (mkStored s m t)).filter (fun r => r.meter_serial == s2) =
      if s2 = s then recs.map (mkStored s m t) else [] := by
  by_cases hq : s2 = s
  · subst hq
    rw [if_pos rfl]
    refine List.filter_eq_self.mpr fun x hx => ?_
    obtain ⟨r, _, rfl⟩ := List.mem_map.mp hx
    simp [mkStored]
  · rw [if_neg hq]
    refine List.filter_eq_nil_iff.mpr fun x hx => ?_
    obtain ⟨r, _, rfl⟩ := List.mem_map.mp hx
    simp only [mkStored, beq_iff_eq]
    exact Ne.symm hq

/-! ## Claim theorems -/

/-- C3: for every series key, `get_latest_interval` returns the maximum
`interval_start` among all stored records whose serial matches, and returns
`none` when the store holds no record for that series. -/
theorem get_latest_interval_spec (db : DB) (serial : String) :
    (get_latest_interval db serial = none ↔ seriesStarts db serial = []) ∧
    (∀ t, get_latest_interval db serial = some t →
      t ∈ seriesStarts db serial ∧ ∀ u ∈ seriesStarts db serial, u ≤ t) ∧
    (seriesStarts db serial ≠ [] →
      ∃ t, get_latest_interval db serial = some t) := by
  refine ⟨List.max?_eq_none_iff, ?_, ?_⟩
  · intro t ht
    exact int_max?_eq_some_iff.mp ht
  · intro hne
    cases h : get_latest_interval db serial with
    | none => exact absurd (List.max?_eq_none_iff.mp h) hne
    | some t => exact ⟨t, rfl⟩

/-- C2: the planned fetch window has `end = now`; `start` is the maximum
stored `interval_start` of the series when the series has records (and so
does not depend on the fallback), otherwise `now` minus the fallback days.
The planner is a pure function of the store state: it is deterministic and
returns no modified store. -/
theorem plan_window_spec (db : DB) (serial : String) (now days : Int) :
    (plan_window db serial now days).2 = now ∧
    (∀ t, get_latest_interval db serial = some t →
      (plan_window db serial now days).1 = t ∧
      t ∈ seriesStarts db serial ∧ ∀ u ∈ seriesStarts db serial, u ≤ t) ∧
    (get_latest_interval db serial = none →
      (plan_window db serial now days).1 = now - days * 86400) ∧
    (∀ d2 : Int, get_latest_interval db serial ≠ none →
      (plan_window db serial now days).1 = (plan_window db serial now d2).1) := by
  rcases h : get_latest_interval db serial with _ | t0
  · refine ⟨by simp [plan_window, h], ?_, ?_, ?_⟩
    · intro t ht
      exact absurd ht (by simp)
    · intro _
      simp [plan_window, h]
    · intro d2 hne
      exact absurd rfl hne
  · refine ⟨by simp [plan_window, h], ?_, ?_, ?_⟩
    · intro t ht
      obtain rfl : t0 = t := by injection ht
      refine ⟨by simp [plan_window, h], (int_max?_eq_some_iff.mp h).1,
        (int_max?_eq_some_iff.mp h).2⟩
    · intro hn
      exact absurd hn (by simp)
    · intro d2 _
      simp [plan_window, h]

/-- C4 counterexample: with an empty store, `now = 0` and
`fallback_days = -1`, the planned window has `start = 86400 > 0 = end`, so
`start <= end` does not hold for every `fallback_days`. -/
theorem plan_window_neg_days_start_gt_end :
    (plan_window [] "M1" 0 (-1)).1 > (plan_window [] "M1" 0 (-1)).2 := by
  decide

/-- C4 (amended): the planned window satisfies `start <= end` whenever the
fallback is non-negative and every stored `interval_start` of the series is
at most `now`; with no records for the series and `fallback_days = 0` the
degenerate `start = end` output is produced. -/
theorem plan_window_start_le_end (db : DB) (serial : String) (now days : Int)
    (hdays : 0 ≤ days) (hpast : ∀ u ∈ seriesStarts db serial, u ≤ now) :
    (plan_window db serial now days).1 ≤ (plan_window db serial now days).2 ∧
    (seriesStarts db serial = [] → days = 0 →
      (plan_window db serial now days).1 = (plan_window db serial now days).2) := by
  rcases h : get_latest_interval db serial with _ | t0
  · constructor
    · simp only [plan_window, h]
      omega
    · intro h1 h2
      simp [plan_window, h, h2]
  · constructor
    · simp only [plan_window, h]
      exact hpast t0 (int_max?_eq_some_iff.mp h).1
    · intro h1 h2
      rw [get_latest_interval, h1] at h
      simp at h

/-- C4 witness: the amended planner ordering at a concrete input. -/
theorem plan_window_start_le_end_witness :
    (plan_window [] "M1" 100 2).1 ≤ (plan_window [] "M1" 100 2).2 :=
  (plan_window_start_le_end [] "M1" 100 2 (by decide) (by decide)).1

/-- C1: starting from an empty store, inserting a batch with distinct keys
and then a second distinct-keyed batch reports `(n, 0)` then `(m, k)`, where
`k` counts the records of the second batch whose key already came with the
first batch and `m` those with a fresh key; the store ends with exactly
`n + m` records. Inserting one distinct-keyed batch twice is the special
case `k = len(B)`, `m = 0`. -/
theorem store_twice_overlap_counts (B1 B2 : List RawRecord) (s m : String)
    (t1 t2 : Int)
    (h1 : (B1.map (·.startAt)).Nodup) (h2 : (B2.map (·.startAt)).Nodup) :
    (store_records [] B1 s m t1).2.1 = B1.length ∧
    (store_records [] B1 s m t1).2.2 = 0 ∧
    (store_records (store_records [] B1 s m t1).1 B2 s m t2).2.1 =
      (B2.filter fun r => decide (r.startAt ∉ B1.map (·.startAt))).length ∧
    (store_records (store_records [] B1 s m t1).1 B2 s m t2).2.2 =
      (B2.filter fun r => decide (r.startAt ∈ B1.map (·.startAt))).length ∧
    get_record_count
        (store_records (store_records [] B1 s m t1).1 B2 s m t2).1 none =
      B1.length +
        (B2.filter fun r => decide (r.startAt ∉ B1.map (·.startAt))).length := by
  have e0 : seriesStarts [] s = [] := rfl
  have e1 : insertedRecs (seriesStarts [] s) B1 = B1 := by
    rw [e0, insertedRecs_nodup_eq_filter _ _ h1]
    simp
  have edb1 : (store_records [] B1 s m t1).1 = B1.map (mkStored s m t1) := by
    rw [store_records_db_eq, e1, List.nil_append]
  have ek : seriesStarts (store_records [] B1 s m t1).1 s =
      B1.map (·.startAt) := by
    rw [edb1, seriesStarts_map_mkStored]
  have e2 : insertedRecs (seriesStarts (store_records [] B1 s m t1).1 s) B2 =
      B2.filter fun r => decide (r.startAt ∉ B1.map (·.startAt)) := by
    rw [ek, insertedRecs_nodup_eq_filter _ _ h2]
  have hcompl :
      (B2.filter fun r => decide (r.startAt ∉ B1.map (·.startAt))) =
        B2.filter fun r => !decide (r.startAt ∈ B1.map (·.startAt)) := by
    refine List.filter_congr fun x _ => ?_
    simp only [decide_not]
  have hsum :
      (B2.filter fun r => decide (r.startAt ∈ B1.map (·.startAt))).length +
        (B2.filter fun r => decide (r.startAt ∉ B1.map (·.startAt))).length =
        B2.length := by
    rw [hcompl]
    exact
      (List.length_eq_length_filter_add
        (fun r : RawRecord => decide (r.startAt ∈ B1.map (·.startAt)))).symm
  refine ⟨?_, ?_, ?_, ?_, ?_⟩
  · rw [store_records_inserted_eq, e1]
  · rw [store_records_skipped_eq, e1]
    omega
  · rw [store_records_inserted_eq, e2]
  · rw [store_records_skipped_eq, e2]
    omega
  · show (store_records (store_records [] B1 s m t1).1 B2 s m t2).1.length = _
    rw [store_records_db_eq, e2, List.length_append, edb1, List.length_map,
      List.length_map]

/-- C1 witness: two overlapping concrete batches; the first insert reports
`(2, 0)`. -/
theorem store_twice_overlap_counts_witness :
    (store_records [] [⟨1, 2, some 5⟩, ⟨2, 3, none⟩] "A" "e" 0).2.1 = 2 ∧
    (store_records [] [⟨1, 2, some 5⟩, ⟨2, 3, none⟩] "A" "e" 0).2.2 = 0 := by
  have h := store_twice_overlap_counts [⟨1, 2, some 5⟩, ⟨2, 3, none⟩]
    [⟨2, 3, some 9⟩, ⟨3, 4, some 7⟩] "A" "e" 0 1 (by decide) (by decide)
  exact ⟨h.1, h.2.1⟩

/-- C5: a key collision is not a failure: the call runs the whole batch
(inserted plus skipped is the batch length, and the function returns counts
rather than an error), previously stored rows are kept verbatim as a prefix,
and no appended row carries a key that was already present, so a colliding
record never overwrites the stored one. -/
theorem store_records_collision_no_failure (db : DB) (recs : List RawRecord)
    (s m : String) (t : Int) :
    ∃ added : DB,
      (store_records db recs s m t).1 = db ++ added ∧
      added.length = (store_records db recs s m t).2.1 ∧
      (store_records db recs s m t).2.1 + (store_records db recs s m t).2.2 =
        recs.length ∧
      ∀ a ∈ added, a.interval_start ∉ seriesStarts db s := by
  refine ⟨(insertedRecs (seriesStarts db s) recs).map (mkStored s m t),
    store_records_db_eq recs db s m t, ?_, store_records_counts recs db s m t,
    ?_⟩
  · rw [store_records_inserted_eq, List.length_map]
  · intro a ha
    obtain ⟨r, hr, rfl⟩ := List.mem_map.mp ha
    have hk := insertedRecs_not_mem_keys _ _ r hr
    simpa [mkStored] using hk

/-- C6: an empty batch returns `(0, 0)` and leaves the store unchanged, and
a sync pass whose fetch collaborator returns an empty sequence reports
`inserted = 0`, `skipped = 0` with the record count of the series unchanged
from before the call. -/
theorem store_records_empty_sync_empty (db : DB) (s m : String)
    (now days ca : Int) (fetch : Int → Int → List RawRecord)
    (hf : ∀ a b, fetch a b = []) :
    store_records db [] s m ca = (db, 0, 0) ∧
    sync db s m now days fetch ca = (db, 0, 0, get_record_count db (some s)) := by
  refine ⟨rfl, ?_⟩
  simp only [sync, hf]
  rfl

/-- C6 witness: an always-empty fetch collaborator at a concrete store. -/
theorem store_records_empty_sync_empty_witness :
    sync [⟨"M1", "e", 1, 2, 0, 0⟩] "M1" "e" 100 7 (fun _ _ => []) 9 =
      ([⟨"M1", "e", 1, 2, 0, 0⟩], 0, 0,
        get_record_count [⟨"M1", "e", 1, 2, 0, 0⟩] (some "M1")) :=
  (store_records_empty_sync_empty [⟨"M1", "e", 1, 2, 0, 0⟩] "M1" "e" 100 7 9
    (fun _ _ => []) (fun _ _ => rfl)).2

/-- C9: conservation of the insert: inserted plus skipped is the batch
length, the count of the batch serial grows by exactly the inserted count,
and the count of every other series is unchanged (stated both for the plain
row count per serial and through `get_record_count`, whose serial filter
requires a non-empty serial string). -/
theorem store_records_conservation (db : DB) (recs : List RawRecord)
    (s m : String) (t : Int) :
    (store_records db recs s m t).2.1 + (store_records db recs s m t).2.2 =
      recs.length ∧
    seriesCount (store_records db recs s m t).1 s =
      seriesCount db s + (store_records db recs s m t).2.1 ∧
    (∀ s2, s2 ≠ s → seriesCount (store_records db recs s m t).1 s2 =
      seriesCount db s2) ∧
    (∀ s2, s2 ≠ "" → get_record_count (store_records db recs s m t).1 (some s2) =
      get_record_count db (some s2) +
        if s2 = s then (store_records db recs s m t).2.1 else 0) ∧
    get_record_count (store_records db recs s m t).1 none =
      get_record_count db none + (store_records db recs s m t).2.1 := by
  have key : ∀ s2 : String,
      ((store_records db recs s m t).1.filter
          fun r => r.meter_serial == s2).length =
        (db.filter fun r => r.meter_serial == s2).length +
          if s2 = s then (store_records db recs s m t).2.1 else 0 := by
    intro s2
    rw [store_records_db_eq, List.filter_append, List.length_append,
      filter_serial_map_mkStored]
    by_cases hq : s2 = s
    · rw [if_pos hq, if_pos hq, List.length_map, store_records_inserted_eq]
    · rw [if_neg hq, if_neg hq]
      rfl
  refine ⟨store_records_counts recs db s m t, ?_, ?_, ?_, ?_⟩
  · have h := key s
    rw [if_pos rfl] at h
    exact h
  · intro s2 hs
    have h := key s2
    rw [if_neg hs] at h
    simpa [seriesCount] using h
  · intro s2 hs
    have h := key s2
    simpa [get_record_count, hs] using h
  · show (store_records db recs s m t).1.length = db.length + _
    rw [store_records_db_eq, List.length_append, List.length_map,
      store_records_inserted_eq]

/-- C8: a record whose optional value field is missing is stored with
consumption value 0 (shown for a record that is actually inserted: its key
is fresh for the store and it is the first occurrence in the batch). -/
theorem store_records_missing_value_default (db : DB) (s m : String) (t : Int)
    (pre rest : List RawRecord) (r : RawRecord)
    (hdb : r.startAt ∉ seriesStarts db s)
    (hpre : r.startAt ∉ pre.map (·.startAt))
    (hval : r.value = none) :
    mkStored s m t r ∈ (store_records db (pre ++ r :: rest) s m t).1 ∧
    (mkStored s m t r).consumption_kwh = 0 := by
  constructor
  · rw [store_records_db_eq]
    exact List.mem_append_right _ (List.mem_map_of_mem _
      (mem_insertedRecs_of_first _ pre rest r hdb hpre))
  · simp [mkStored, hval]

/-- C8 witness: a value-less record stored into an empty store. -/
theorem store_records_missing_value_default_witness :
    mkStored "A" "e" 7 ⟨5, 6, none⟩ ∈
      (store_records [] ([] ++ ⟨5, 6, none⟩ :: []) "A" "e" 7).1 ∧
    (mkStored "A" "e" 7 ⟨5, 6, none⟩).consumption_kwh = 0 :=
  store_records_missing_value_default [] "A" "e" 7 [] [] ⟨5, 6, none⟩
    (by decide) (by decide) rfl

/-- String equality by `BEq` is the decided propositional equality. -/
theorem string_beq_decide (a b : String) : (a == b) = decide (a = b) := rfl

/-- Pointwise reading of the WHERE clause: the code filter agrees with the
specification-level predicate in which a provided empty-string serial places
no constraint. -/
theorem matchesFilters_eq_decide (serial : Option String) (sd ed : Option Int)
    (x : StoredRecord) :
    matchesFilters serial sd ed x =
      decide ((∀ s2, serial = some s2 → s2 ≠ "" → x.meter_serial = s2) ∧
        (∀ d, sd = some d → d ≤ x.interval_start) ∧
        (∀ d, ed = some d → x.interval_start ≤ d)) := by
  rcases serial with _ | s2
  · rcases sd with _ | d1 <;> rcases ed with _ | d2 <;>
      simp [matchesFilters]
  · by_cases hs : s2 = ""
    · subst hs
      rcases sd with _ | d1 <;> rcases ed with _ | d2 <;>
        simp [matchesFilters]
    · rcases sd with _ | d1 <;> rcases ed with _ | d2 <;>
        simp [matchesFilters, hs, and_assoc, string_beq_decide,
          Bool.and_assoc]

/-- C7 counterexample: with a provided empty-string series key the code
applies no series filter at all, so a record that does not satisfy the
provided filter is returned: the claim fails as stated for every combination
of optional arguments. -/
theorem get_all_records_ignores_empty_serial :
    get_all_records [⟨"A", "e", 1, 2, 0, 0⟩] (some "") none none =
      [⟨"A", "e", 1, 2, 0, 0⟩] ∧
    (⟨"A", "e", 1, 2, 0, 0⟩ : StoredRecord).meter_serial ≠ "" := by
  constructor
  · rfl
  · decide

/-- C7 (amended): `get_all_records` returns exactly the stored records
satisfying all provided filters — where a provided empty-string series key
is treated as absent — with the range filter on `interval_start` inclusive
on both bounds, and the result is ordered ascending by `interval_start`. -/
theorem get_all_records_spec (db : DB) (serial : Option String)
    (sd ed : Option Int) :
    (get_all_records db serial sd ed).Perm (db.filter fun r =>
      decide ((∀ s2, serial = some s2 → s2 ≠ "" → r.meter_serial = s2) ∧
        (∀ d, sd = some d → d ≤ r.interval_start) ∧
        (∀ d, ed = some d → r.interval_start ≤ d))) ∧
    List.Sorted startLE (get_all_records db serial sd ed) := by
  constructor
  · show ((db.filter (matchesFilters serial sd ed)).insertionSort
      startLE).Perm _
    rw [List.filter_congr fun x _ => matchesFilters_eq_decide serial sd ed x]
    exact List.perm_insertionSort _ _
  · exact List.sorted_insertionSort startLE _

/-- A table holds no row with a key absent from the series starts. -/
theorem filter_key_eq_nil_of_not_mem (db : DB) (s : String) (a : Int)
    (h : a ∉ seriesStarts db s) :
    (db.filter fun rec => rec.meter_serial == s && rec.interval_start == a) =
      [] := by
  refine List.filter_eq_nil_iff.mpr fun x hx => ?_
  simp only [Bool.and_eq_true, beq_iff_eq, not_and]
  intro h1 h2
  have hmem : x.interval_start ∈ seriesStarts db s :=
    List.mem_map_of_mem _ (List.mem_filter.mpr ⟨hx, by simp [h1]⟩)
  exact h (h2 ▸ hmem)

/-- C10: when a batch contains a record whose key is fresh for the store and
a later record with the same key, the first occurrence is inserted, the
table ends with exactly that one row for the key (the later occurrence does
not overwrite it), the whole batch is accounted for, and at least as many
records are skipped as there are later occurrences of the key. -/
theorem store_records_within_batch_dedup (db : DB) (s m : String) (t : Int)
    (pre rest : List RawRecord) (r1 : RawRecord)
    (hdb : r1.startAt ∉ seriesStarts db s)
    (hpre : r1.startAt ∉ pre.map (·.startAt)) :
    ((store_records db (pre ++ r1 :: rest) s m t).1.filter fun rec =>
        rec.meter_serial == s && rec.interval_start == r1.startAt) =
      [mkStored s m t r1] ∧
    (store_records db (pre ++ r1 :: rest) s m t).2.1 +
      (store_records db (pre ++ r1 :: rest) s m t).2.2 =
      (pre ++ r1 :: rest).length ∧
    (rest.filter fun r2 => r2.startAt == r1.startAt).length ≤
      (store_records db (pre ++ r1 :: rest) s m t).2.2 := by
  have hprefil : (pre.filter fun x => x.startAt == r1.startAt) = [] := by
    refine List.filter_eq_nil_iff.mpr fun x hx => ?_
    simp only [beq_iff_eq]
    intro he
    exact hpre (he ▸ List.mem_map_of_mem (·.startAt) hx)
  have hinsfil :
      ((insertedRecs (seriesStarts db s) (pre ++ r1 :: rest)).filter
        fun x => x.startAt == r1.startAt) = [r1] := by
    rw [insertedRecs_filter_key, if_neg hdb, List.filter_append, hprefil,
      List.nil_append, List.filter_cons, if_pos (by simp)]
    simp
  refine ⟨?_, store_records_counts _ db s m t, ?_⟩
  · rw [store_records_db_eq, List.filter_append,
      filter_key_eq_nil_of_not_mem db s r1.startAt hdb, List.nil_append,
      List.filter_map]
    have hcomp :
        ((fun rec => rec.meter_serial == s && rec.interval_start == r1.startAt)
          ∘ mkStored s m t) = fun x : RawRecord => x.startAt == r1.startAt := by
      funext x
      simp [mkStored, Function.comp]
    rw [hcomp, hinsfil]
    rfl
  · have hskip := store_records_skipped_eq (pre ++ r1 :: rest) db s m t
    have hsub := insertedRecs_sublist (seriesStarts db s) (pre ++ r1 :: rest)
    have hIlen := List.length_eq_length_filter_add
      (fun x : RawRecord => x.startAt == r1.startAt)
      (l := insertedRecs (seriesStarts db s) (pre ++ r1 :: rest))
    have hLlen := List.length_eq_length_filter_add
      (fun x : RawRecord => x.startAt == r1.startAt) (l := pre ++ r1 :: rest)
    have hsubf := ((hsub.filter
      (fun x : RawRecord => !(x.startAt == r1.startAt)))).length_le
    have hIfil :
        ((insertedRecs (seriesStarts db s) (pre ++ r1 :: rest)).filter
          fun x => x.startAt == r1.startAt).length = 1 := by
      rw [hinsfil]
      rfl
    have hLfil : ((pre ++ r1 :: rest).filter
        fun x => x.startAt == r1.startAt).length =
        1 + (rest.filter fun x => x.startAt == r1.startAt).length := by
      rw [List.filter_append, hprefil, List.nil_append, List.filter_cons,
        if_pos (by simp), List.length_cons]
      omega
    rw [hskip]
    rw [hIfil] at hIlen
    rw [hLfil] at hLlen
    simp only [List.length_append, List.length_cons] at hIlen hLlen hsubf ⊢
    omega

/-- C10 witness: a batch with a duplicated key against an empty store keeps
only the first occurrence. -/
theorem store_records_within_batch_dedup_witness :
    ((store_records [] ([] ++ ⟨1, 2, some 5⟩ :: [⟨1, 9, some 8⟩])
        "A" "e" 0).1.filter fun rec =>
          rec.meter_serial == "A" && rec.interval_start == (1 : Int)) =
      [mkStored "A" "e" 0 ⟨1, 2, some 5⟩] :=
  (store_records_within_batch_dedup [] "A" "e" 0 [] [⟨1, 9, some 8⟩]
    ⟨1, 2, some 5⟩ (by decide) (by decide)).1
